import Mathlib

/-!
# Verification of the media timeline composition engine (`src/video_composer.py`)

This file gives a shallow embedding of the timeline-composition code of the
repository (class `VideoComposer`) and proves, or refutes, the frozen claims
about it.  Text is modelled as `List Char` (Python code points), durations as
exact rationals `ℚ` (the Python floats carry real-valued timing data), and the
side-effecting pipeline (`create_slideshow_with_subtitles`, `concatenate_videos`)
as pure functions from an environment of stage outcomes to a result together
with a trace of file-system events.

Whitespace is modelled by the common ASCII whitespace characters, which is what
both `str.split()` and the `\s` regular-expression class match on the inputs
this code processes.  Recursions are fuelled by input length so that every
definition is kernel-computable.
-/

namespace VideoComposer

/-! ## Text and tokens -/

/-- ASCII whitespace, the splitting class used by Python `str.split()` and by
the `\s` regular-expression class on the texts this engine handles. -/
def isWS (c : Char) : Bool :=
  c = ' ' || c = '\t' || c = '\n' || c = '\r'

/-- Fuelled worker for `splitWords`.  With fuel at least the length of the
input the fuel never runs out, since every step consumes a character. -/
def splitWordsF : Nat → List Char → List (List Char)
  | _, [] => []
  | 0, _ :: _ => []
  | n + 1, c :: cs =>
    if isWS c then splitWordsF n cs
    else (c :: cs.takeWhile (fun d => !isWS d)) ::
      splitWordsF n (cs.dropWhile (fun d => !isWS d))

/-- `str.split()`: maximal runs of non-whitespace characters, empties dropped. -/
def splitWords (s : List Char) : List (List Char) := splitWordsF s.length s

/-- `" ".join(words)`. -/
def joinSp : List (List Char) → List Char
  | [] => []
  | [w] => w
  | w :: ws => w ++ ' ' :: joinSp ws

/-- Token-counting automaton: `scan b s` counts the maximal non-whitespace runs
of `s`, where `b` records whether the character just before `s` was
non-whitespace (so a leading run of `s` continues an already-counted token). -/
def scan : Bool → List Char → Nat
  | _, [] => 0
  | b, c :: cs => if isWS c then scan false cs else (if b then 0 else 1) + scan true cs

/-- State of the token automaton after reading `s` starting from state `b`. -/
def endSt : Bool → List Char → Bool
  | b, [] => b
  | _, c :: cs => endSt (!isWS c) cs

/-! ## Reverse normalization (`_convert_tts_to_subtitle_format`, lines 30-84)

The Python code applies, in order, a fixed list of `re.sub` substitutions to the
segment text.  Each substitution is modelled as a left-to-right scanner that, at
the leftmost matching position, replaces the matched span and continues after
it, exactly as `re.sub` does (on these patterns greedy matching never needs to
backtrack, so the scanner is equivalent to the regex engine). -/

/-- One pass of leftmost non-overlapping substitution, driven by `step`, which
at a given suffix either fires (returning the replacement and the remaining
input after the matched span) or does not.  `fuel` bounds recursion depth. -/
def subFuel (step : List Char → Option (List Char × List Char)) :
    Nat → List Char → List Char
  | 0, s => s
  | _ + 1, [] => []
  | n + 1, c :: cs =>
    match step (c :: cs) with
    | some (r, rest) => r ++ subFuel step n rest
    | none => c :: subFuel step n cs

/-- A substitution step is sound when whatever it matches is a nonempty prefix
of the input that begins and ends in a non-whitespace character, and its
replacement is nonempty and whitespace-free.  All substitutions of
`_convert_tts_to_subtitle_format` satisfy this. -/
def GoodStep (step : List Char → Option (List Char × List Char)) : Prop :=
  ∀ s r rest, step s = some (r, rest) →
    ∃ consumed, s = consumed ++ rest ∧ consumed ≠ [] ∧
      (∀ b, (if b then 0 else 1) ≤ scan b consumed) ∧
      (∀ b, endSt b consumed = true) ∧
      r ≠ [] ∧ (∀ c ∈ r, isWS c = false)

/-- One full `re.sub` pass of a step function over a text. -/
def applyStep (step : List Char → Option (List Char × List Char))
    (s : List Char) : List Char :=
  subFuel step s.length s

/-- Substitution of a literal pattern (e.g. `퍼센트 → %`). -/
def litStep (pat repl : List Char) (s : List Char) : Option (List Char × List Char) :=
  if pat ≠ [] ∧ pat.isPrefixOf s then some (repl, s.drop pat.length) else none

/-- Substitution for `(\d+)\s*X → \1X` (the 억 and 만 spacing rules): a maximal
digit run, optional whitespace, then the unit character, replaced by the digits
immediately followed by the unit. -/
def digitUnitStep (unit : Char) (s : List Char) : Option (List Char × List Char) :=
  match s with
  | [] => none
  | c :: _ =>
    if c.isDigit then
      match (s.dropWhile Char.isDigit).dropWhile isWS with
      | u :: rest =>
        if u = unit then some (s.takeWhile Char.isDigit ++ [unit], rest) else none
      | [] => none
    else none

/-- Substitution for `K\s*분기 → D분기` (quarter rules): the numeral word `K`,
optional whitespace, then 분기, replaced by digit `D` followed by 분기. -/
def quarterStep (kNum kDigit : Char) (s : List Char) : Option (List Char × List Char) :=
  match s with
  | [] => none
  | c :: r1 =>
    if c = kNum then
      if ['분', '기'].isPrefixOf (r1.dropWhile isWS) then
        some ([kDigit, '분', '기'], (r1.dropWhile isWS).drop 2)
      else none
    else none

/-- The substitution table of `_convert_tts_to_subtitle_format`
(`video_composer.py` lines 44-78), in source order. -/
def convertSteps : List (List Char → Option (List Char × List Char)) :=
  [ litStep ['퍼', '센', '트'] ['%'],
    litStep ['달', '러'] ['$'],
    litStep ['원'] ['₩'],
    litStep ['일', '점', '오'] ['1', '.', '5'],
    litStep ['이', '점', '오'] ['2', '.', '5'],
    litStep ['삼', '점', '오'] ['3', '.', '5'],
    litStep ['사', '점', '오'] ['4', '.', '5'],
    litStep ['오', '점', '오'] ['5', '.', '5'],
    litStep ['육', '점', '오'] ['6', '.', '5'],
    litStep ['칠', '점', '오'] ['7', '.', '5'],
    litStep ['팔', '점', '오'] ['8', '.', '5'],
    litStep ['구', '점', '오'] ['9', '.', '5'],
    digitUnitStep '억',
    digitUnitStep '만',
    quarterStep '일' '1',
    quarterStep '이' '2',
    quarterStep '삼' '3',
    quarterStep '사' '4',
    litStep ['십', '억'] ['1', '0', '억'],
    litStep ['백', '억'] ['1', '0', '0', '억'],
    litStep ['천', '억'] ['1', '0', '0', '0', '억'],
    litStep ['일', '조'] ['1', '조'] ]

/-- `_convert_tts_to_subtitle_format`: apply every substitution, in order. -/
def convert_tts_to_subtitle_format (s : List Char) : List Char :=
  convertSteps.foldl (fun acc st => applyStep st acc) s

/-- Number of `str.split()` tokens of a text. -/
def tokenCount (s : List Char) : Nat := (splitWords s).length

/-! ## Segment model and timeline math (`create_slideshow_with_subtitles`) -/

/-- One entry of `segments_data` as consumed by `create_slideshow_with_subtitles`
(docstring at lines 509-519; `title` read via `segment.get('title', '')`). -/
structure Segment where
  image_path : List Char
  audio_path : List Char
  audio_duration : ℚ
  text : List Char
  title : List Char
  segment_number : Nat
  deriving DecidableEq

/-- Line 546: `speed_factor = 1.2`, fixed once per composition run. -/
def speed_factor : ℚ := 6 / 5

/-- Line 551: `clip_duration = segment['audio_duration'] / speed_factor`. -/
def clip_duration (seg : Segment) : ℚ := seg.audio_duration / speed_factor

/-- Line 881: the `atempo` filter is applied with `speed_factor`. -/
def atempo_factor : ℚ := speed_factor

/-- Line 879: `volume_boost = 1.5`. -/
def volume_boost : ℚ := 3 / 2

/-- Line 930: `total_audio_duration = sum(audio_duration) / speed_factor`. -/
def total_audio_duration (segs : List Segment) : ℚ :=
  (segs.map (fun s => s.audio_duration)).sum / speed_factor

/-- Lines 780-784: the subtitle words of a segment are the whitespace tokens of
the reverse-normalized text. -/
def segment_words (seg : Segment) : List (List Char) :=
  splitWords (convert_tts_to_subtitle_format seg.text)

/-- Line 792: `segment_duration = segment['audio_duration'] / speed_factor`. -/
def segment_duration (seg : Segment) : ℚ := seg.audio_duration / speed_factor

/-- Line 793: `time_per_word = segment_duration / total_words`. -/
def time_per_word (seg : Segment) : ℚ :=
  segment_duration seg / ((segment_words seg).length : ℚ)

/-- Line 823: `max_chars_per_line = 12`. -/
def max_chars_per_line : Nat := 12

/-- Line 799: `total_words_per_subtitle = 4`. -/
def total_words_per_subtitle : Nat := 4

/-- Fuelled worker for the chunking loop `words[i:i+4]` (lines 801-803). -/
def chunk4F {α : Type} : Nat → List α → List (List α)
  | _, [] => []
  | 0, _ :: _ => []
  | n + 1, x :: xs => (x :: xs.take 3) :: chunk4F n (xs.drop 3)

/-- `words[i:i+4]` slices for `i = 0, 4, 8, ...` (lines 801-803). -/
def chunk4 {α : Type} (l : List α) : List (List α) := chunk4F l.length l

/-- Lines 825-830: while line 1 is over budget and still has more than one
word, pop its last word onto the front of line 2. -/
def rebalanceF : Nat → List (List Char) → List (List Char) →
    List (List Char) × List (List Char)
  | 0, l1, l2 => (l1, l2)
  | n + 1, l1, l2 =>
    if (joinSp l1).length > max_chars_per_line ∧ l1.length > 1 then
      rebalanceF n l1.dropLast ((l1.getLast?.getD []) :: l2)
    else (l1, l2)

def rebalance (l1 l2 : List (List Char)) : List (List Char) × List (List Char) :=
  rebalanceF l1.length l1 l2

/-- Lines 812-838: split one word chunk into its displayed line(s). -/
def splitChunkLines (chunk : List (List Char)) : List (List Char) :=
  let mid := (chunk.length + 1) / 2
  let p := rebalance (chunk.take mid) (chunk.drop mid)
  if joinSp p.2 ≠ [] ∧ p.1.length > 0 ∧ p.2.length > 0 then
    [joinSp p.1, joinSp p.2]
  else
    [joinSp chunk]

/-- One timed subtitle display unit (an ASS `Dialogue` line). -/
structure CaptionEvent where
  startSeconds : ℚ
  endSeconds : ℚ
  lines : List (List Char)
  deriving DecidableEq

/-- Lines 840-856: events of one segment; the running clock advances by
`time_per_word * chunk_word_count` per chunk.  Returns the events and the
final clock. -/
def segmentEvents (tpw : ℚ) : ℚ → List (List (List Char)) →
    List CaptionEvent × ℚ
  | clock, [] => ([], clock)
  | clock, ch :: rest =>
    let e : CaptionEvent := ⟨clock, clock + tpw * ch.length, splitChunkLines ch⟩
    let p := segmentEvents tpw (clock + tpw * ch.length) rest
    (e :: p.1, p.2)

/-- Lines 776-856: the full caption-event list of a run.  A segment with no
words is skipped without advancing the clock (lines 787-788). -/
def buildEvents : ℚ → List Segment → List CaptionEvent
  | _, [] => []
  | clock, seg :: rest =>
    if (segment_words seg).length = 0 then buildEvents clock rest
    else
      let p := segmentEvents (time_per_word seg) clock (chunk4 (segment_words seg))
      p.1 ++ buildEvents p.2 rest

/-! ## Title overlay (lines 566-572) -/

def apos : Char := Char.ofNat 39

def bslash : Char := Char.ofNat 92

/-- Line 566: `segment.get('title', '').replace("'", "\\'")`. -/
def escapeQuote : List Char → List Char
  | [] => []
  | c :: cs => if c = apos then bslash :: apos :: escapeQuote cs else c :: escapeQuote cs

/-- Line 570: `max_title_length = 10`. -/
def max_title_length : Nat := 10

/-- Lines 566-572: the title string used for the overlay filter. -/
def overlayTitle (title : List Char) : List Char :=
  let t := escapeQuote title
  if t.length > max_title_length then t.take max_title_length ++ ['.', '.', '.'] else t

/-! ## Media-kind dispatch and Ken Burns motion patterns -/

/-- Line 388: the video extension set of `_is_video_file`. -/
def video_extensions : List (List Char) :=
  [['.', 'm', 'p', '4'], ['.', 'm', 'o', 'v'], ['.', 'a', 'v', 'i'],
   ['.', 'm', 'k', 'v'], ['.', 'w', 'e', 'b', 'm'], ['.', 'f', 'l', 'v']]

/-- `pathlib.Path(p).suffix`: the extension of the final path component,
empty when the name has no interior dot. -/
def fileSuffix (p : List Char) : List Char :=
  let base := (p.reverse.takeWhile (fun c => c ≠ '/')).reverse
  let revExt := base.reverse.takeWhile (fun c => c ≠ '.')
  if revExt ≠ [] ∧ revExt.length + 1 < base.length then '.' :: revExt.reverse
  else []

/-- Lines 378-389: extension-based video/image dispatch. -/
def is_video_file (p : List Char) : Bool :=
  decide ((fileSuffix p).map Char.toLower ∈ video_extensions)

/-- The quantities that distinguish the eight `movement_patterns` filter
strings (lines 614-646): initial up-scale, zoom start and per-frame delta, and
the per-frame x/y pan speeds. -/
structure MotionPattern where
  preScale : ℚ
  zoomStart : ℚ
  zoomDelta : ℚ
  panX : ℚ
  panY : ℚ
  deriving DecidableEq

/-- Lines 614-646: the fixed pattern table. -/
def movement_patterns : List MotionPattern :=
  [ ⟨3, 6/5, 1/1000, 3/2, 0⟩,
    ⟨3, 3/2, -(1/1000), -(6/5), 0⟩,
    ⟨3, 6/5, 12/10000, 1, 7/10⟩,
    ⟨3, 3/2, -(1/1000), 0, -(13/10)⟩,
    ⟨7/2, 11/10, 15/10000, 8/10, 0⟩,
    ⟨3, 3/2, -(12/10000), -(9/10), -(8/10)⟩,
    ⟨3, 6/5, 8/10000, 0, 11/10⟩,
    ⟨3, 3/2, -(1/1000), -(16/10), 0⟩ ]

/-- Line 649: `ken_burns = movement_patterns[i % len(movement_patterns)]`,
where `i` is the position of the segment in the enumeration of
`segments_data`. -/
def ken_burns_for (i : Nat) : MotionPattern :=
  movement_patterns.get
    ⟨i % movement_patterns.length, Nat.mod_lt i (by decide)⟩

/-- The motion pattern each clip receives: image segments get the Ken Burns
pattern of their enumeration position, video segments get none (lines
575-594 versus 597-649). -/
def clipMotions (segments : List Segment) : List (Option MotionPattern) :=
  segments.enum.map (fun p =>
    if is_video_file p.2.image_path then none else some (ken_burns_for p.1))

/-! ## Pipeline model (`concatenate_videos`, `create_slideshow_with_subtitles`)

The side-effecting pipeline is modelled as a pure function from an environment
describing the outcome of each external step (encoder invocations, file-system
checks) to a result plus a trace of file-system events.  The traced files are
the claim-relevant artifacts: per-segment clips, the two ffmpeg list files, the
concatenated video and audio tracks, the subtitle descriptor, and the final
video.  Auxiliary files the function never deletes (the generated background
music, the rendered icon) are outside the trace. -/

/-- The files `create_slideshow_with_subtitles` creates or deletes. -/
inductive FileId
  | clip (i : Nat)
  | concatList
  | concatVideo
  | audioList
  | concatAudio
  | subtitleFile
  | finalVideo
  deriving DecidableEq

/-- File-system / encoder events, in program order. -/
inductive Ev
  | create (f : FileId)
  | encode
  | delete (f : FileId)
  | verifyFinal
  deriving DecidableEq

/-- The `VideoCompositionError` variants raised on the paths modelled here,
distinguished by raise site. -/
inductive CompErr
  | noSegments
  | clipFailed
  | noVideoPaths
  | missingVideoFile
  | concatFailed
  | audioConcatFailed
  | finalMuxFailed
  | unboundMixedAudio
  | combineFailed
  | finalMissing
  | finalEmpty
  deriving DecidableEq

deriving instance DecidableEq for Except

/-- `concatenate_videos` (lines 264-376).  `allExist` is the outcome of the
per-input existence checks; `encOk` the outcome of the ffmpeg concat run
together with its output verification. -/
def concatenate_videos (allExist encOk : Bool) (paths : List FileId) :
    Except CompErr FileId × List Ev :=
  match paths with
  | [] => (.error .noVideoPaths, [])
  | [p] => (.ok p, [])
  | _ =>
    if allExist = false then (.error .missingVideoFile, [])
    else if encOk then
      (.ok .concatVideo,
        [.create .concatList, .encode, .create .concatVideo, .delete .concatList])
    else
      (.error .concatFailed, [.create .concatList, .delete .concatList])

/-- Outcomes of the external steps of one `create_slideshow_with_subtitles`
run. -/
structure RunEnv where
  nSegments : Nat
  clipsOk : Bool
  concatOk : Bool
  audioConcatOk : Bool
  enableSubtitles : Bool
  enableBgm : Bool
  bgmOk : Bool
  muxOk : Bool
  finalExists : Bool
  finalNonEmpty : Bool
  combineOk : Bool
  deriving DecidableEq

def clipFiles (n : Nat) : List FileId := (List.range n).map FileId.clip

/-- Lines 1086-1106: verify the final artifact, then delete the per-segment
clips, the concatenated video, the concatenated audio and (when enabled) the
subtitle file — in that order; on a failed verification nothing is deleted. -/
def finishRun (env : RunEnv) (cv : FileId) (pre : List Ev) :
    Except CompErr FileId × List Ev :=
  if env.finalExists = false then (.error .finalMissing, pre)
  else if env.finalNonEmpty = false then (.error .finalEmpty, pre)
  else
    (.ok .finalVideo,
      pre ++ Ev.verifyFinal ::
        ((clipFiles env.nSegments).map Ev.delete ++
          [Ev.delete cv, Ev.delete .concatAudio] ++
          (if env.enableSubtitles then [Ev.delete .subtitleFile] else [])))

/-- Lines 988-1078: the final-mux stage when subtitles are enabled.  When
background music is enabled and its generation fails, the `except` fallback
(lines 1042-1057) assigns a voiceover-only output, but the unconditional
re-assignment at lines 1059-1066 then reads the local `mixed_audio`, which was
never bound on that path, raising `UnboundLocalError`; the outer handler turns
it into a `VideoCompositionError`. -/
def muxStage (env : RunEnv) : Except CompErr Unit × List Ev :=
  if env.enableBgm then
    if env.bgmOk then
      if env.muxOk then (.ok (), [Ev.encode, Ev.create .finalVideo])
      else (.error .finalMuxFailed, [])
    else (.error .unboundMixedAudio, [])
  else
    if env.muxOk then (.ok (), [Ev.encode, Ev.create .finalVideo])
    else (.error .finalMuxFailed, [])

/-- `create_slideshow_with_subtitles` (lines 504-1118) as a result plus event
trace. -/
def runSlideshow (env : RunEnv) : Except CompErr FileId × List Ev :=
  if env.nSegments = 0 then (.error .noSegments, [])
  else if env.clipsOk = false then (.error .clipFailed, [])
  else
    let evA := (clipFiles env.nSegments).map Ev.create
    match concatenate_videos true env.concatOk (clipFiles env.nSegments) with
    | (.error e, evB) => (.error e, evA ++ evB)
    | (.ok cv, evB) =>
      if env.audioConcatOk = false then
        (.error .audioConcatFailed, evA ++ evB ++ [Ev.create .audioList])
      else
        let evC := [Ev.create .audioList, Ev.encode, Ev.create .concatAudio,
          Ev.delete .audioList]
        if env.enableSubtitles then
          let evD := [Ev.create .subtitleFile]
          match muxStage env with
          | (.error e, evE) => (.error e, evA ++ evB ++ evC ++ evD ++ evE)
          | (.ok _, evE) => finishRun env cv (evA ++ evB ++ evC ++ evD ++ evE)
        else
          if env.combineOk then
            finishRun env cv (evA ++ evB ++ evC ++ [Ev.encode, Ev.create .finalVideo])
          else
            (.error .combineFailed, evA ++ evB ++ evC)

/-! ## Concrete inputs used by witnesses and counterexamples -/

/-- Three-segment run with audio durations 4.0, 6.0 and 5.0 seconds. -/
def demoSegments : List Segment :=
  [ ⟨['a', '.', 'p', 'n', 'g'], ['a', '.', 'm', 'p', '3'], 4, [], [], 1⟩,
    ⟨['b', '.', 'p', 'n', 'g'], ['b', '.', 'm', 'p', '3'], 6, [], [], 2⟩,
    ⟨['c', '.', 'p', 'n', 'g'], ['c', '.', 'm', 'p', '3'], 5, [], [], 3⟩ ]

/-- A single image-backed segment with 1-based ordinal 1. -/
def imgSeg1 : Segment :=
  ⟨['p', 'i', 'c', '.', 'p', 'n', 'g'], ['a', '.', 'm', 'p', '3'], 4,
    ['가', ' ', '나', ' ', '다', ' ', '라', ' ', '마'], ['가'], 1⟩

/-- An 11-character title (over the 10-character budget). -/
def demoTitle : List Char :=
  ['삼', '성', '전', '자', '반', '도', '체', '실', '적', '발', '표']

/-- The text `일 분기` (spelled-out first quarter with a space). -/
def quarterText : List Char := ['일', ' ', '분', '기']

/-- Environment: two segments, video concatenation fails, everything else
would succeed. -/
def concatFailEnv : RunEnv :=
  ⟨2, true, false, true, true, false, true, true, true, true, true⟩

/-- Environment: background-music generation fails, every other external step
succeeds; subtitles and background music enabled (the defaults). -/
def bgmFailEnv : RunEnv :=
  ⟨1, true, true, true, true, true, false, true, true, true, true⟩

/-- A fully successful two-segment run with subtitles enabled. -/
def happyEnv : RunEnv :=
  ⟨2, true, true, true, true, false, true, true, true, true, true⟩

/-! ## Lemmas: tokens and the scanning automaton -/

theorem length_dropWhile_le (p : Char → Bool) (l : List Char) :
    (l.dropWhile p).length ≤ l.length := by
  induction l with
  | nil => simp [List.dropWhile]
  | cons c cs ih =>
    by_cases h : p c <;> simp [List.dropWhile, h] <;> omega

theorem scan_append (b : Bool) (u v : List Char) :
    scan b (u ++ v) = scan b u + scan (endSt b u) v := by
  induction u generalizing b with
  | nil => simp [scan, endSt]
  | cons c cs ih =>
    by_cases h : isWS c <;> simp [scan, endSt, h, ih] <;> omega

theorem scan_block (u : List Char) (hu : u ≠ []) (hws : ∀ c ∈ u, isWS c = false) :
    ∀ b, scan b u = (if b then 0 else 1) ∧ endSt b u = true := by
  induction u with
  | nil => exact absurd rfl hu
  | cons c cs ih =>
    intro b
    have hc : isWS c = false := hws c (List.mem_cons_self c cs)
    rcases List.eq_nil_or_concat cs with h | _
    · subst h; simp [scan, endSt, hc]
    · have hcs : cs ≠ [] := by
        rintro rfl; simp_all
      have := ih hcs (fun d hd => hws d (List.mem_cons_of_mem c hd)) true
      simp [scan, endSt, hc, this.1, this.2]

theorem scan_ge_head (c : Char) (t : List Char) (hc : isWS c = false) (b : Bool) :
    (if b then 0 else 1) ≤ scan b (c :: t) := by
  simp only [scan, hc, Bool.false_eq_true, if_false]
  cases b <;> omega

theorem endSt_concat (u : List Char) (c : Char) (b : Bool) :
    endSt b (u ++ [c]) = !isWS c := by
  induction u generalizing b with
  | nil => simp [endSt]
  | cons d ds ih => simp [endSt, ih]

theorem scan_true_eq_dropWhile (cs : List Char) :
    scan true cs = scan false (cs.dropWhile (fun d => !isWS d)) := by
  induction cs with
  | nil => simp [scan]
  | cons d ds ih =>
    by_cases h : isWS d
    · simp [scan, List.dropWhile, h]
    · simp [scan, List.dropWhile, h, ih]

theorem splitWordsF_length_eq_scan :
    ∀ n s, s.length ≤ n → (splitWordsF n s).length = scan false s := by
  intro n
  induction n with
  | zero =>
    intro s h
    match s with
    | [] => simp [splitWordsF, scan]
    | c :: cs => simp at h
  | succ n ih =>
    intro s h
    match s with
    | [] => simp [splitWordsF, scan]
    | c :: cs =>
      by_cases hw : isWS c
      · simp only [splitWordsF, hw, if_true, scan]
        exact ih cs (by simp only [List.length_cons] at h; omega)
      · simp only [splitWordsF, hw, Bool.false_eq_true, if_false, scan, List.length_cons]
        rw [ih (cs.dropWhile (fun d => !isWS d))
            (by have := length_dropWhile_le (fun d => !isWS d) cs
                simp only [List.length_cons] at h; omega)]
        rw [scan_true_eq_dropWhile]
        omega

theorem splitWords_length_eq_scan (s : List Char) :
    (splitWords s).length = scan false s :=
  splitWordsF_length_eq_scan s.length s le_rfl

theorem splitWordsF_ne_nil : ∀ n s, ∀ w ∈ splitWordsF n s, w ≠ [] := by
  intro n
  induction n with
  | zero =>
    intro s w hw
    match s with
    | [] => simp [splitWordsF] at hw
    | c :: cs => simp [splitWordsF] at hw
  | succ n ih =>
    intro s w hw
    match s with
    | [] => simp [splitWordsF] at hw
    | c :: cs =>
      by_cases h : isWS c
      · rw [splitWordsF] at hw; simp only [h, if_true] at hw
        exact ih cs w hw
      · rw [splitWordsF] at hw; simp only [h, Bool.false_eq_true, if_false] at hw
        rcases List.mem_cons.mp hw with h1 | h2
        · subst h1; simp
        · exact ih (cs.dropWhile (fun d => !isWS d)) w h2

/-- Every token produced by `splitWords` is nonempty. -/
theorem splitWords_ne_nil (s : List Char) : ∀ w ∈ splitWords s, w ≠ [] :=
  splitWordsF_ne_nil s.length s

theorem splitWordsF_no_ws : ∀ n s, ∀ w ∈ splitWordsF n s, ∀ c ∈ w, isWS c = false := by
  intro n
  induction n with
  | zero =>
    intro s w hw
    match s with
    | [] => simp [splitWordsF] at hw
    | c :: cs => simp [splitWordsF] at hw
  | succ n ih =>
    intro s w hw
    match s with
    | [] => simp [splitWordsF] at hw
    | c :: cs =>
      by_cases h : isWS c
      · rw [splitWordsF] at hw; simp only [h, if_true] at hw
        exact ih cs w hw
      · rw [splitWordsF] at hw; simp only [h, Bool.false_eq_true, if_false] at hw
        rcases List.mem_cons.mp hw with h1 | h2
        · subst h1
          intro d hd
          rcases List.mem_cons.mp hd with h3 | h4
          · subst h3; simpa using h
          · have := List.mem_takeWhile_imp h4
            simpa using this
        · exact ih (cs.dropWhile (fun d => !isWS d)) w h2

/-- Every character of a `splitWords` token is non-whitespace. -/
theorem splitWords_no_ws (s : List Char) :
    ∀ w ∈ splitWords s, ∀ c ∈ w, isWS c = false :=
  splitWordsF_no_ws s.length s

/-! ## Lemmas: the substitution engine -/

theorem scan_subFuel_le (step : List Char → Option (List Char × List Char))
    (hstep : GoodStep step) :
    ∀ n s b, s.length ≤ n → scan b (subFuel step n s) ≤ scan b s := by
  intro n
  induction n with
  | zero =>
    intro s b h
    simp [subFuel]
  | succ n ih =>
    intro s b hlen
    match s with
    | [] => simp [subFuel, scan]
    | c :: cs =>
      cases hm : step (c :: cs) with
      | none =>
        simp only [subFuel, hm]
        by_cases h : isWS c
        · simp only [scan, h, if_true]
          exact ih cs false (by simp only [List.length_cons] at hlen; omega)
        · simp only [scan, h, Bool.false_eq_true, if_false]
          have := ih cs true (by simp only [List.length_cons] at hlen; omega)
          omega
      | some pr =>
        obtain ⟨r, rest⟩ := pr
        obtain ⟨consumed, hs, hne, hscan, hend, hr, hrws⟩ := hstep _ _ _ hm
        simp only [subFuel, hm]
        rw [scan_append]
        have hblock := scan_block r hr hrws b
        rw [hblock.1, hblock.2]
        have hclen : 1 ≤ consumed.length := by
          cases consumed with
          | nil => exact absurd rfl hne
          | cons x xs => simp
        have hslen : (c :: cs).length = consumed.length + rest.length := by
          rw [hs]; simp
        have hrlen : rest.length ≤ n := by
          simp only [List.length_cons] at hlen hslen; omega
        have hrec := ih rest true hrlen
        have hsplit : scan b (c :: cs) = scan b consumed + scan (endSt b consumed) rest := by
          rw [hs, scan_append]
        rw [hsplit, hend b]
        have := hscan b
        omega

theorem litStep_good (pat repl : List Char) (hp : pat ≠ [])
    (hpws : ∀ c ∈ pat, isWS c = false)
    (hr : repl ≠ []) (hrws : ∀ c ∈ repl, isWS c = false) :
    GoodStep (litStep pat repl) := by
  intro s r rest hm
  unfold litStep at hm
  split at hm
  case isTrue h =>
    simp only [Option.some.injEq, Prod.mk.injEq] at hm
    obtain ⟨rfl, rfl⟩ := hm
    obtain ⟨t, ht⟩ := List.isPrefixOf_iff_prefix.mp h.2
    refine ⟨pat, ?_, hp, ?_, ?_, hr, hrws⟩
    · rw [← ht, List.drop_left]
    · intro b
      obtain ⟨c, t2, rfl⟩ := List.exists_cons_of_ne_nil hp
      exact scan_ge_head c t2 (hpws c (List.mem_cons_self c t2)) b
    · intro b
      obtain ⟨u, c, hpc⟩ := (List.eq_nil_or_concat pat).resolve_left hp
      have hcw : isWS c = false := hpws c (by rw [hpc]; simp)
      rw [hpc, List.concat_eq_append, endSt_concat, hcw]
      rfl
  case isFalse => exact absurd hm (by simp)

theorem isDigit_not_ws (c : Char) (h : c.isDigit = true) : isWS c = false := by
  by_contra hws
  have hws2 : isWS c = true := by simpa using hws
  have hcs : c = ' ' ∨ c = '\t' ∨ c = '\n' ∨ c = '\r' := by
    simpa [isWS, or_assoc] using hws2
  rcases hcs with h1 | h1 | h1 | h1 <;> subst h1 <;>
    exact absurd h (by decide)

theorem digitUnitStep_good (unit : Char) (hunit : isWS unit = false) :
    GoodStep (digitUnitStep unit) := by
  intro s r rest hm
  match s with
  | [] => exact absurd hm (by simp [digitUnitStep])
  | c :: cs =>
    rw [digitUnitStep] at hm
    by_cases hdig : c.isDigit
    · rw [if_pos hdig] at hm
      cases hr2 : ((c :: cs).dropWhile Char.isDigit).dropWhile isWS with
      | nil =>
        simp only [hr2] at hm
        exact absurd hm (by simp)
      | cons u rest2 =>
        simp only [hr2] at hm
        by_cases hu : u = unit
        · rw [if_pos hu] at hm
          simp only [Option.some.injEq, Prod.mk.injEq] at hm
          obtain ⟨rfl, rfl⟩ := hm
          subst hu
          refine ⟨(c :: cs).takeWhile Char.isDigit ++
              ((c :: cs).dropWhile Char.isDigit).takeWhile isWS ++ [u], ?_, by simp,
              ?_, ?_, by simp, ?_⟩
          · have h1 := List.takeWhile_append_dropWhile (p := Char.isDigit) (l := c :: cs)
            have h2 := List.takeWhile_append_dropWhile (p := isWS)
              (l := (c :: cs).dropWhile Char.isDigit)
            rw [hr2] at h2
            calc c :: cs
                = (c :: cs).takeWhile Char.isDigit ++ (c :: cs).dropWhile Char.isDigit :=
                  h1.symm
              _ = (c :: cs).takeWhile Char.isDigit ++
                  (((c :: cs).dropWhile Char.isDigit).takeWhile isWS ++ (u :: rest2)) := by
                  rw [h2]
              _ = (c :: cs).takeWhile Char.isDigit ++
                  ((c :: cs).dropWhile Char.isDigit).takeWhile isWS ++ [u] ++ rest2 := by
                  simp
          · intro b
            have hdc : (c :: cs).takeWhile Char.isDigit = c :: cs.takeWhile Char.isDigit := by
              rw [List.takeWhile_cons, if_pos hdig]
            rw [hdc]
            simp only [List.cons_append]
            exact scan_ge_head c _ (isDigit_not_ws c hdig) b
          · intro b
            rw [endSt_concat, hunit]
            rfl
          · intro d hd
            rcases List.mem_append.mp hd with h1 | h1
            · exact isDigit_not_ws d (List.mem_takeWhile_imp h1)
            · rw [List.mem_singleton.mp h1]; exact hunit
        · rw [if_neg hu] at hm
          exact absurd hm (by simp)
    · rw [if_neg hdig] at hm
      exact absurd hm (by simp)

theorem quarterStep_good (kNum kDigit : Char) (hk : isWS kNum = false)
    (hd : isWS kDigit = false) : GoodStep (quarterStep kNum kDigit) := by
  intro s r rest hm
  match s with
  | [] => exact absurd hm (by simp [quarterStep])
  | c :: r1 =>
    rw [quarterStep] at hm
    by_cases hc : c = kNum
    · rw [if_pos hc] at hm
      subst hc
      by_cases hpre : ['분', '기'].isPrefixOf (r1.dropWhile isWS)
      · rw [if_pos hpre] at hm
        simp only [Option.some.injEq, Prod.mk.injEq] at hm
        obtain ⟨rfl, rfl⟩ := hm
        obtain ⟨t, ht⟩ := List.isPrefixOf_iff_prefix.mp hpre
        refine ⟨c :: r1.takeWhile isWS ++ ['분', '기'], ?_, by simp, ?_, ?_, by simp, ?_⟩
        · have h2 := List.takeWhile_append_dropWhile (p := isWS) (l := r1)
          have h3 : (r1.dropWhile isWS).drop 2 = t := by
            rw [← ht]; exact List.drop_left ['분', '기'] t
          calc c :: r1 = c :: (r1.takeWhile isWS ++ r1.dropWhile isWS) := by rw [h2]
            _ = c :: (r1.takeWhile isWS ++ (['분', '기'] ++ t)) := by rw [ht]
            _ = (c :: r1.takeWhile isWS ++ ['분', '기']) ++ (r1.dropWhile isWS).drop 2 := by
                rw [h3]; simp
        · intro b
          exact scan_ge_head c _ hk b
        · intro b
          have hsplit : c :: r1.takeWhile isWS ++ ['분', '기'] =
              (c :: r1.takeWhile isWS ++ ['분']) ++ ['기'] := by simp
          rw [hsplit, endSt_concat]
          decide
        · intro d hdm
          have hd3 : d = kDigit ∨ d = '분' ∨ d = '기' := by simpa using hdm
          rcases hd3 with rfl | rfl | rfl
          · exact hd
          · decide
          · decide
      · rw [if_neg hpre] at hm
        exact absurd hm (by simp)
    · rw [if_neg hc] at hm
      exact absurd hm (by simp)

/-- Every substitution of `_convert_tts_to_subtitle_format` is sound. -/
theorem convertSteps_good : ∀ st ∈ convertSteps, GoodStep st := by
  intro st hst
  simp only [convertSteps, List.mem_cons, List.not_mem_nil, or_false] at hst
  rcases hst with rfl | rfl | rfl | rfl | rfl | rfl | rfl | rfl | rfl | rfl | rfl | rfl |
    rfl | rfl | rfl | rfl | rfl | rfl | rfl | rfl | rfl | rfl
  all_goals first
    | exact digitUnitStep_good '억' (by decide)
    | exact digitUnitStep_good '만' (by decide)
    | exact quarterStep_good '일' '1' (by decide) (by decide)
    | exact quarterStep_good '이' '2' (by decide) (by decide)
    | exact quarterStep_good '삼' '3' (by decide) (by decide)
    | exact quarterStep_good '사' '4' (by decide) (by decide)
    | exact litStep_good _ _ (by decide) (by decide) (by decide) (by decide)

theorem scan_applyStep_le (step : List Char → Option (List Char × List Char))
    (hstep : GoodStep step) (s : List Char) (b : Bool) :
    scan b (applyStep step s) ≤ scan b s :=
  scan_subFuel_le step hstep s.length s b le_rfl

theorem scan_foldl_steps_le (steps : List (List Char → Option (List Char × List Char)))
    (hgood : ∀ st ∈ steps, GoodStep st) (s : List Char) :
    scan false (steps.foldl (fun acc st => applyStep st acc) s) ≤ scan false s := by
  induction steps generalizing s with
  | nil => simp
  | cons st rest ih =>
    simp only [List.foldl_cons]
    exact le_trans
      (ih (fun x hx => hgood x (List.mem_cons_of_mem st hx)) (applyStep st s))
      (scan_applyStep_le st (hgood st (List.mem_cons_self st rest)) s false)

/-- The reverse-normalization pass never increases the token count. -/
theorem tokenCount_convert_le (s : List Char) :
    tokenCount (convert_tts_to_subtitle_format s) ≤ tokenCount s := by
  unfold tokenCount convert_tts_to_subtitle_format
  rw [splitWords_length_eq_scan, splitWords_length_eq_scan]
  exact scan_foldl_steps_le convertSteps convertSteps_good s

/-! ## Lemmas: chunking and caption timing -/

theorem chunk4F_flatten {α : Type} :
    ∀ n (l : List α), l.length ≤ n → (chunk4F n l).flatten = l := by
  intro n
  induction n with
  | zero =>
    intro l h
    match l with
    | [] => simp [chunk4F]
    | x :: xs => simp at h
  | succ n ih =>
    intro l h
    match l with
    | [] => simp [chunk4F]
    | x :: xs =>
      simp only [chunk4F, List.flatten_cons]
      rw [ih (xs.drop 3)
          (by have := List.length_drop 3 xs; simp only [List.length_cons] at h; omega)]
      simp [List.take_append_drop]

theorem chunk4_flatten {α : Type} (l : List α) : (chunk4 l).flatten = l :=
  chunk4F_flatten l.length l le_rfl

theorem chunk4F_chunk_size {α : Type} :
    ∀ n (l : List α), ∀ c ∈ chunk4F n l, c ≠ [] ∧ c.length ≤ 4 := by
  intro n
  induction n with
  | zero =>
    intro l c hc
    match l with
    | [] => simp [chunk4F] at hc
    | x :: xs => simp [chunk4F] at hc
  | succ n ih =>
    intro l c hc
    match l with
    | [] => simp [chunk4F] at hc
    | x :: xs =>
      simp only [chunk4F, List.mem_cons] at hc
      rcases hc with rfl | hc2
      · refine ⟨by simp, ?_⟩
        have := List.length_take_le 3 xs
        simp only [List.length_cons]
        omega
      · exact ih (xs.drop 3) c hc2

theorem chunk4_chunk_size {α : Type} (l : List α) :
    ∀ c ∈ chunk4 l, c ≠ [] ∧ c.length ≤ 4 :=
  chunk4F_chunk_size l.length l

theorem chunk4F_mem_mem {α : Type} :
    ∀ n (l : List α), ∀ c ∈ chunk4F n l, ∀ x ∈ c, x ∈ l := by
  intro n
  induction n with
  | zero =>
    intro l c hc
    match l with
    | [] => simp [chunk4F] at hc
    | x :: xs => simp [chunk4F] at hc
  | succ n ih =>
    intro l c hc x hx
    match l with
    | [] => simp [chunk4F] at hc
    | y :: ys =>
      simp only [chunk4F, List.mem_cons] at hc
      rcases hc with rfl | hc2
      · rcases List.mem_cons.mp hx with rfl | hx2
        · exact List.mem_cons_self x ys
        · exact List.mem_cons_of_mem y (List.take_subset 3 ys hx2)
      · exact List.mem_cons_of_mem y
          (List.drop_subset 3 ys (ih (ys.drop 3) c hc2 x hx))

theorem chunk4_mem_mem {α : Type} (l : List α) :
    ∀ c ∈ chunk4 l, ∀ x ∈ c, x ∈ l :=
  chunk4F_mem_mem l.length l

theorem chunk4_sum_length {α : Type} (l : List α) :
    ((chunk4 l).map List.length).sum = l.length := by
  rw [← List.length_flatten, chunk4_flatten]

theorem segmentEvents_spec (tpw : ℚ) (htpw : 0 < tpw) :
    ∀ (chunks : List (List (List Char))) (clock : ℚ), (∀ c ∈ chunks, c ≠ []) →
      (segmentEvents tpw clock chunks).2
          = clock + tpw * (((chunks.map List.length).sum : Nat) : ℚ) ∧
      (∀ e ∈ (segmentEvents tpw clock chunks).1,
        clock ≤ e.startSeconds ∧ e.startSeconds < e.endSeconds ∧
          e.endSeconds ≤ (segmentEvents tpw clock chunks).2) ∧
      List.Pairwise (fun a b => a.endSeconds ≤ b.startSeconds)
        (segmentEvents tpw clock chunks).1 := by
  intro chunks
  induction chunks with
  | nil =>
    intro clock h
    simp [segmentEvents]
  | cons ch rest ih =>
    intro clock hne
    have hch : ch ≠ [] := hne ch (List.mem_cons_self _ _)
    have hchpos : 0 < ((ch.length : Nat) : ℚ) := by
      have h0 : 0 < ch.length := List.length_pos.mpr hch
      exact_mod_cast h0
    have hstep : 0 < tpw * ch.length := mul_pos htpw hchpos
    obtain ⟨hclock, hbounds, hpair⟩ :=
      ih (clock + tpw * ch.length) (fun c hc => hne c (List.mem_cons_of_mem _ hc))
    have hfin : (segmentEvents tpw clock (ch :: rest)).2
        = (segmentEvents tpw (clock + tpw * ch.length) rest).2 := rfl
    have hrest_ge : clock + tpw * ch.length ≤ (segmentEvents tpw clock (ch :: rest)).2 := by
      rw [hfin, hclock]
      have : (0 : ℚ) ≤ tpw * (((rest.map List.length).sum : Nat) : ℚ) := by
        have : (0 : ℚ) ≤ (((rest.map List.length).sum : Nat) : ℚ) := by positivity
        positivity
      linarith
    refine ⟨?_, ?_, ?_⟩
    · rw [hfin, hclock]
      simp only [List.map_cons, List.sum_cons]
      push_cast
      ring
    · intro e he
      have he2 : e = ⟨clock, clock + tpw * ch.length, splitChunkLines ch⟩ ∨
          e ∈ (segmentEvents tpw (clock + tpw * ch.length) rest).1 := by
        simpa [segmentEvents] using he
      rcases he2 with rfl | he3
      · exact ⟨le_refl _, by simpa using hstep, hrest_ge⟩
      · obtain ⟨h1, h2, h3⟩ := hbounds e he3
        exact ⟨by linarith, h2, by rw [hfin]; exact h3⟩
    · have hshape : (segmentEvents tpw clock (ch :: rest)).1
          = ⟨clock, clock + tpw * ch.length, splitChunkLines ch⟩ ::
            (segmentEvents tpw (clock + tpw * ch.length) rest).1 := rfl
      rw [hshape, List.pairwise_cons]
      exact ⟨fun e he => (hbounds e he).1, hpair⟩

theorem sum_segment_duration (segs : List Segment) :
    (segs.map segment_duration).sum = total_audio_duration segs := by
  induction segs with
  | nil => simp [total_audio_duration]
  | cons s rest ih =>
    simp only [List.map_cons, List.sum_cons, total_audio_duration] at ih ⊢
    rw [ih]
    unfold segment_duration
    ring

theorem buildEvents_spec :
    ∀ (segs : List Segment), (∀ s ∈ segs, 0 < s.audio_duration) →
    ∀ clock : ℚ,
      (∀ e ∈ buildEvents clock segs,
        clock ≤ e.startSeconds ∧ e.startSeconds < e.endSeconds ∧
        e.endSeconds ≤ clock + (segs.map segment_duration).sum) ∧
      List.Pairwise (fun a b => a.endSeconds ≤ b.startSeconds) (buildEvents clock segs) := by
  intro segs
  induction segs with
  | nil =>
    intro h clock
    simp [buildEvents]
  | cons seg rest ih =>
    intro hpos clock
    have hd : 0 < segment_duration seg := by
      have h0 := hpos seg (List.mem_cons_self _ _)
      unfold segment_duration speed_factor
      positivity
    have hrest_pos : ∀ s ∈ rest, 0 < s.audio_duration :=
      fun s hs => hpos s (List.mem_cons_of_mem _ hs)
    have hsum_nonneg : 0 ≤ (rest.map segment_duration).sum := by
      apply List.sum_nonneg
      intro x hx
      obtain ⟨s, hs, rfl⟩ := List.mem_map.mp hx
      have := hrest_pos s hs
      unfold segment_duration speed_factor
      positivity
    by_cases hz : (segment_words seg).length = 0
    · have hshape : buildEvents clock (seg :: rest) = buildEvents clock rest := by
        simp [buildEvents, hz]
      obtain ⟨hb, hp⟩ := ih hrest_pos clock
      rw [hshape]
      refine ⟨fun e he => ?_, hp⟩
      obtain ⟨h1, h2, h3⟩ := hb e he
      refine ⟨h1, h2, le_trans h3 ?_⟩
      simp only [List.map_cons, List.sum_cons]
      linarith
    · have hlenpos : 0 < (((segment_words seg).length : Nat) : ℚ) := by
        have h0 : 0 < (segment_words seg).length := Nat.pos_of_ne_zero hz
        exact_mod_cast h0
      have htpw : 0 < time_per_word seg := by
        unfold time_per_word
        exact div_pos hd hlenpos
      have hchne : ∀ c ∈ chunk4 (segment_words seg), c ≠ [] :=
        fun c hc => (chunk4_chunk_size (segment_words seg) c hc).1
      obtain ⟨hclk, hbnd, hpair⟩ :=
        segmentEvents_spec (time_per_word seg) htpw (chunk4 (segment_words seg)) clock hchne
      have hclk2 : (segmentEvents (time_per_word seg) clock (chunk4 (segment_words seg))).2
          = clock + segment_duration seg := by
        rw [hclk, chunk4_sum_length]
        unfold time_per_word
        field_simp
      have hshape : buildEvents clock (seg :: rest)
          = (segmentEvents (time_per_word seg) clock (chunk4 (segment_words seg))).1 ++
            buildEvents
              (segmentEvents (time_per_word seg) clock (chunk4 (segment_words seg))).2
              rest := by
        simp [buildEvents, hz]
      obtain ⟨hb2, hp2⟩ := ih hrest_pos
        (segmentEvents (time_per_word seg) clock (chunk4 (segment_words seg))).2
      rw [hshape]
      constructor
      · intro e he
        rcases List.mem_append.mp he with h1 | h2
        · obtain ⟨ha, hbq, hc⟩ := hbnd e h1
          refine ⟨ha, hbq, ?_⟩
          rw [hclk2] at hc
          simp only [List.map_cons, List.sum_cons]
          linarith
        · obtain ⟨ha, hbq, hc⟩ := hb2 e h2
          rw [hclk2] at ha hc
          refine ⟨by linarith, hbq, ?_⟩
          simp only [List.map_cons, List.sum_cons]
          linarith
      · rw [List.pairwise_append]
        refine ⟨hpair, hp2, fun a ha b hb => ?_⟩
        have h1 := (hbnd a ha).2.2
        have h2 := (hb2 b hb).1
        linarith

/-! ## Claim theorems -/

/-- C10: `concatenate_videos` raises a composition error on an empty clip list
without touching the file system, and returns a single input path unchanged
with no new file and no re-encode. -/
theorem concatenate_videos_edges (allExist encOk : Bool) (p : FileId) :
    concatenate_videos allExist encOk [] = (Except.error CompErr.noVideoPaths, []) ∧
    concatenate_videos allExist encOk [p] = (Except.ok p, []) :=
  ⟨rfl, rfl⟩

/-- C1 (code bug): with subtitles and background music enabled, a
background-music generation failure does not degrade gracefully: the dead
re-assignment after the fallback reads the unbound `mixed_audio`, the run
aborts with a composition error, and no final artifact is produced or
verified. -/
theorem bgm_failure_aborts_run :
    (runSlideshow bgmFailEnv).1 = Except.error CompErr.unboundMixedAudio ∧
    Ev.create FileId.finalVideo ∉ (runSlideshow bgmFailEnv).2 ∧
    Ev.verifyFinal ∉ (runSlideshow bgmFailEnv).2 := by decide

/-- C2: one `speed_factor` value (6/5 = 1.2) is shared by clip-duration
scaling, the narration `atempo` filter, and every subtitle timing computation;
for any segment with words, the subtitle time allotted to it equals its clip
duration. -/
theorem speed_factor_single_source (segs : List Segment) :
    (∀ seg ∈ segs, clip_duration seg = seg.audio_duration / speed_factor) ∧
    atempo_factor = speed_factor ∧
    (∀ seg ∈ segs, time_per_word seg =
      (seg.audio_duration / speed_factor) / ((segment_words seg).length : ℚ)) ∧
    (∀ seg ∈ segs, (segment_words seg).length ≠ 0 →
      time_per_word seg * ((segment_words seg).length : ℚ) = clip_duration seg) ∧
    total_audio_duration segs * speed_factor =
      (segs.map (fun s => s.audio_duration)).sum ∧
    speed_factor = 6 / 5 := by
  refine ⟨fun seg _ => rfl, rfl, fun seg _ => rfl, fun seg _ h => ?_, ?_, rfl⟩
  · have hq : ((segment_words seg).length : ℚ) ≠ 0 := by exact_mod_cast h
    unfold time_per_word segment_duration clip_duration
    exact div_mul_cancel₀ _ hq
  · have hsf : speed_factor ≠ 0 := by unfold speed_factor; norm_num
    unfold total_audio_duration
    exact div_mul_cancel₀ _ hsf

/-- C2 witness at a concrete one-segment run. -/
theorem speed_factor_single_source_witness :
    clip_duration imgSeg1 = imgSeg1.audio_duration / speed_factor ∧
    time_per_word imgSeg1 * ((segment_words imgSeg1).length : ℚ) = clip_duration imgSeg1 :=
  ⟨(speed_factor_single_source [imgSeg1]).1 imgSeg1 (by decide),
   (speed_factor_single_source [imgSeg1]).2.2.2.1 imgSeg1 (by decide) (by decide)⟩

/-- C3: for positive audio durations, every caption event starts strictly
before it ends, events are pairwise non-overlapping with strictly increasing
start times, and no event ends after the reconciled total narration
duration. -/
theorem caption_events_invariants (segs : List Segment)
    (hpos : ∀ s ∈ segs, 0 < s.audio_duration) :
    (∀ e ∈ buildEvents 0 segs, e.startSeconds < e.endSeconds) ∧
    List.Pairwise (fun a b => a.endSeconds ≤ b.startSeconds ∧
      a.startSeconds < b.startSeconds) (buildEvents 0 segs) ∧
    (∀ e ∈ buildEvents 0 segs, e.endSeconds ≤ total_audio_duration segs) := by
  obtain ⟨hb, hp⟩ := buildEvents_spec segs hpos 0
  refine ⟨fun e he => (hb e he).2.1, ?_, fun e he => ?_⟩
  · refine List.Pairwise.imp_of_mem (fun ha hb2 hr => ?_) hp
    exact ⟨hr, lt_of_lt_of_le (hb _ ha).2.1 hr⟩
  · have h3 := (hb e he).2.2
    rwa [zero_add, sum_segment_duration] at h3

/-- C3 witness: a concrete one-segment run with five words. -/
theorem caption_events_invariants_witness :
    (∀ e ∈ buildEvents 0 [imgSeg1], e.startSeconds < e.endSeconds) ∧
    List.Pairwise (fun a b => a.endSeconds ≤ b.startSeconds ∧
      a.startSeconds < b.startSeconds) (buildEvents 0 [imgSeg1]) ∧
    (∀ e ∈ buildEvents 0 [imgSeg1], e.endSeconds ≤ total_audio_duration [imgSeg1]) :=
  caption_events_invariants [imgSeg1] (by decide)

/-- C8: every clip duration is the one-shot division
`audio_duration / speed_factor`; on durations [4, 6, 5] with factor 1.2 the
clip durations are [10/3, 5, 25/6] and the reconciled total is 12.5 s. -/
theorem clip_duration_one_shot :
    (∀ seg : Segment, clip_duration seg = seg.audio_duration / speed_factor) ∧
    demoSegments.map clip_duration = [10/3, 5, 25/6] ∧
    total_audio_duration demoSegments = 25/2 :=
  ⟨fun _ => rfl,
   by norm_num [demoSegments, clip_duration, speed_factor],
   by norm_num [demoSegments, total_audio_duration, speed_factor]⟩

theorem escapeQuote_id (title : List Char) (h : apos ∉ title) :
    escapeQuote title = title := by
  induction title with
  | nil => rfl
  | cons c cs ih =>
    have hc : ¬(c = apos) := by
      intro hce; subst hce; exact h (List.mem_cons_self _ _)
    rw [escapeQuote, if_neg hc, ih (fun hm => h (List.mem_cons_of_mem _ hm))]

/-- C9: a title whose overlay text exceeds the 10-character budget is rendered
as its 10-character prefix followed by `...`; shorter titles are rendered
unmodified.  The budget is measured on the quote-escaped title, which equals
the title itself whenever it contains no apostrophe. -/
theorem title_truncation_spec (title : List Char) :
    ((escapeQuote title).length > max_title_length →
      overlayTitle title = (escapeQuote title).take max_title_length ++ ['.', '.', '.']) ∧
    ((escapeQuote title).length ≤ max_title_length →
      overlayTitle title = escapeQuote title) ∧
    (apos ∉ title → escapeQuote title = title) := by
  refine ⟨fun h => ?_, fun h => ?_, fun h => escapeQuote_id title h⟩
  · simp only [overlayTitle]
    rw [if_pos h]
  · simp only [overlayTitle]
    rw [if_neg (by omega)]

/-- C9 witness: an 11-character apostrophe-free title is truncated to its
10-character prefix plus ellipsis. -/
theorem title_truncation_witness :
    overlayTitle demoTitle = (escapeQuote demoTitle).take max_title_length ++ ['.', '.', '.'] ∧
    escapeQuote demoTitle = demoTitle :=
  ⟨(title_truncation_spec demoTitle).1 (by decide),
   (title_truncation_spec demoTitle).2.2 (by decide)⟩

/-- C5 (counterexample): the reverse-normalization pass can merge two
space-separated tokens — `일 분기` (2 tokens) becomes `1분기` (1 token), because
the quarter pattern consumes the inter-token whitespace. -/
theorem convert_token_count_counterexample :
    tokenCount (convert_tts_to_subtitle_format quarterText) = 1 ∧
    tokenCount quarterText = 2 ∧
    tokenCount (convert_tts_to_subtitle_format quarterText) ≠ tokenCount quarterText := by
  decide

/-- C5 (amended): the reverse-normalization pass never increases the number of
space-delimited tokens; it preserves the count except that the
whitespace-consuming patterns (`(\d+)\s*억`, `(\d+)\s*만`, `N\s*분기`) may merge
adjacent tokens and so decrease it. -/
theorem convert_token_count_le (s : List Char) :
    tokenCount (convert_tts_to_subtitle_format s) ≤ tokenCount s :=
  tokenCount_convert_le s

/-- C7 (counterexample): the Ken Burns pattern is selected by the 0-based
enumeration position, not by the 1-based segment ordinal: the first segment
(ordinal 1) receives pattern 0, whereas selection by
`segment_number % patternCount` would give pattern 1. -/
theorem ken_burns_index_counterexample :
    clipMotions [imgSeg1] = [some (ken_burns_for 0)] ∧
    ken_burns_for (imgSeg1.segment_number % movement_patterns.length) ≠ ken_burns_for 0 := by
  constructor
  · rfl
  · have e1 : ken_burns_for (imgSeg1.segment_number % movement_patterns.length)
        = (⟨3, 3/2, -(1/1000), -(6/5), 0⟩ : MotionPattern) := rfl
    have e0 : ken_burns_for 0 = (⟨3, 6/5, 1/1000, 3/2, 0⟩ : MotionPattern) := rfl
    rw [e1, e0]
    intro hcon
    simp only [MotionPattern.mk.injEq] at hcon
    have h2 := hcon.2.1
    norm_num at h2

/-- C7 (amended): for contiguously 1-based numbered segments, an image-backed
segment with ordinal `n` receives motion pattern
`movement_patterns[(n - 1) % patternCount]`. -/
theorem ken_burns_amended (segs : List Segment)
    (hnum : ∀ (i : Nat) (s : Segment), segs[i]? = some s → s.segment_number = i + 1) :
    ∀ (i : Nat) (s : Segment), segs[i]? = some s → is_video_file s.image_path = false →
      (clipMotions segs)[i]? = some (some (ken_burns_for (s.segment_number - 1))) := by
  intro i s hs himg
  have hnum2 := hnum i s hs
  unfold clipMotions
  rw [List.getElem?_map, List.getElem?_enum, hs]
  simp [himg, hnum2]

/-- C7 witness: one image segment with ordinal 1 receives pattern (1-1) % 8 = 0. -/
theorem ken_burns_amended_witness :
    (clipMotions [imgSeg1])[0]? =
      some (some (ken_burns_for (imgSeg1.segment_number - 1))) :=
  ken_burns_amended [imgSeg1]
    (by
      intro i s hs
      match i with
      | 0 =>
        simp only [List.getElem?_cons_zero, Option.some.injEq] at hs
        subst hs
        rfl
      | n + 1 => simp at hs)
    0 imgSeg1 rfl rfl

/-! ## Lemmas: line rebalancing (`splitChunkLines`) -/

theorem rebalanceF_concat : ∀ n (l1 l2 : List (List Char)), l1 ≠ [] →
    (rebalanceF n l1 l2).1 ++ (rebalanceF n l1 l2).2 = l1 ++ l2 ∧
    (rebalanceF n l1 l2).1 ≠ [] := by
  intro n
  induction n with
  | zero => intro l1 l2 h; exact ⟨rfl, h⟩
  | succ n ih =>
    intro l1 l2 h1
    rw [rebalanceF]
    split
    case isTrue hcond =>
      have hlen : 1 < l1.length := hcond.2
      have hdne : l1.dropLast ≠ [] := by
        have hdl : l1.dropLast.length = l1.length - 1 := List.length_dropLast l1
        intro hc
        rw [hc] at hdl
        simp only [List.length_nil] at hdl
        omega
      obtain ⟨hcc, hne2⟩ := ih l1.dropLast ((l1.getLast?.getD []) :: l2) hdne
      refine ⟨?_, hne2⟩
      rw [hcc]
      have hgl : l1.getLast?.getD [] = l1.getLast h1 := by
        rw [List.getLast?_eq_getLast l1 h1]
        rfl
      rw [hgl]
      have hassoc : l1.dropLast ++ l1.getLast h1 :: l2
          = (l1.dropLast ++ [l1.getLast h1]) ++ l2 := by simp
      rw [hassoc, List.dropLast_append_getLast h1]
    case isFalse => exact ⟨rfl, h1⟩

theorem rebalanceF_l2_ne : ∀ n (l1 l2 : List (List Char)), l2 ≠ [] →
    (rebalanceF n l1 l2).2 ≠ [] := by
  intro n
  induction n with
  | zero => intro l1 l2 h; exact h
  | succ n ih =>
    intro l1 l2 h
    rw [rebalanceF]
    split
    case isTrue => exact ih _ _ (by simp)
    case isFalse => exact h

theorem rebalanceF_l2_mem : ∀ n (l1 l2 : List (List Char)),
    ∀ w ∈ (rebalanceF n l1 l2).2, w ∈ l1 ∨ w ∈ l2 ∨ w = [] := by
  intro n
  induction n with
  | zero => intro l1 l2 w h; exact Or.inr (Or.inl h)
  | succ n ih =>
    intro l1 l2 w h
    rw [rebalanceF] at h
    split at h
    case isTrue =>
      rcases ih _ _ w h with h1 | h1 | h1
      · exact Or.inl (List.dropLast_subset l1 h1)
      · rcases List.mem_cons.mp h1 with h2 | h2
        · cases hg : l1.getLast? with
          | none => right; right; rw [h2, hg]; rfl
          | some x =>
            left
            rw [h2, hg]
            have hx : x ∈ l1.getLast? := Option.mem_def.mpr hg
            obtain ⟨hne, hxe⟩ := List.mem_getLast?_eq_getLast hx
            rw [hxe]
            exact List.getLast_mem hne
        · exact Or.inr (Or.inl h2)
      · exact Or.inr (Or.inr h1)
    case isFalse => exact Or.inr (Or.inl h)

theorem rebalanceF_exit : ∀ n (l1 l2 : List (List Char)), l1.length ≤ n + 1 →
    ¬((joinSp (rebalanceF n l1 l2).1).length > max_chars_per_line ∧
      (rebalanceF n l1 l2).1.length > 1) := by
  intro n
  induction n with
  | zero =>
    intro l1 l2 h
    simp only [rebalanceF]
    intro hc
    omega
  | succ n ih =>
    intro l1 l2 h
    rw [rebalanceF]
    split
    case isTrue hcond =>
      refine ih _ _ ?_
      have hdl : l1.dropLast.length = l1.length - 1 := List.length_dropLast l1
      omega
    case isFalse hcond => exact hcond

theorem rebalanceF_noop : ∀ n (l1 l2 : List (List Char)),
    ¬((joinSp l1).length > max_chars_per_line ∧ l1.length > 1) →
    rebalanceF n l1 l2 = (l1, l2) := by
  intro n
  match n with
  | 0 => intro l1 l2 h; rfl
  | n + 1 =>
    intro l1 l2 h
    rw [rebalanceF, if_neg h]

theorem joinSp_ne_nil (ws : List (List Char)) (h1 : ws ≠ [])
    (h2 : ∀ w ∈ ws, w ≠ []) : joinSp ws ≠ [] := by
  match ws with
  | [w] =>
    simpa [joinSp] using h2 w (List.mem_cons_self _ _)
  | w :: w2 :: rest =>
    have hj : joinSp (w :: w2 :: rest) = w ++ ' ' :: joinSp (w2 :: rest) := rfl
    rw [hj]
    simp

theorem splitChunkLines_single (chunk : List (List Char)) (h : chunk.length = 1) :
    splitChunkLines chunk = [joinSp chunk] := by
  match chunk with
  | [w] =>
    have hreb : rebalance [w] [] = ([w], []) := by
      apply rebalanceF_noop
      intro hc
      simp at hc
    simp only [splitChunkLines, List.length_cons, List.length_nil]
    norm_num
    rw [hreb]
    simp [joinSp]
  | [] => simp at h
  | _ :: _ :: _ => simp at h

theorem rebalance_concat (l1 l2 : List (List Char)) (h : l1 ≠ []) :
    (rebalance l1 l2).1 ++ (rebalance l1 l2).2 = l1 ++ l2 ∧ (rebalance l1 l2).1 ≠ [] :=
  rebalanceF_concat l1.length l1 l2 h

theorem rebalance_l2_ne (l1 l2 : List (List Char)) (h : l2 ≠ []) :
    (rebalance l1 l2).2 ≠ [] :=
  rebalanceF_l2_ne l1.length l1 l2 h

theorem rebalance_exit (l1 l2 : List (List Char)) :
    ¬((joinSp (rebalance l1 l2).1).length > max_chars_per_line ∧
      (rebalance l1 l2).1.length > 1) :=
  rebalanceF_exit l1.length l1 l2 (Nat.le_succ _)

theorem rebalance_noop (l1 l2 : List (List Char))
    (h : ¬((joinSp l1).length > max_chars_per_line ∧ l1.length > 1)) :
    rebalance l1 l2 = (l1, l2) :=
  rebalanceF_noop l1.length l1 l2 h

theorem take_eq_of_append {α : Type} {a b c : List α} (h : a ++ b = c) :
    c.take a.length = a := by
  rw [← h]
  exact List.take_left _ _

theorem drop_eq_of_append {α : Type} {a b c : List α} (h : a ++ b = c) :
    c.drop a.length = b := by
  rw [← h]
  exact List.drop_left _ _

theorem splitChunkLines_two (chunk : List (List Char)) (hlen : 1 < chunk.length)
    (hwne : ∀ w ∈ chunk, w ≠ []) :
    ∃ k, 0 < k ∧ k < chunk.length ∧
      splitChunkLines chunk = [joinSp (chunk.take k), joinSp (chunk.drop k)] ∧
      ((joinSp (chunk.take k)).length ≤ max_chars_per_line ∨ k = 1) ∧
      ((joinSp (chunk.take ((chunk.length + 1) / 2))).length ≤ max_chars_per_line →
        k = (chunk.length + 1) / 2) := by
  have hmid1 : 1 ≤ (chunk.length + 1) / 2 := by omega
  have hmidlt : (chunk.length + 1) / 2 < chunk.length := by omega
  have htlen : (chunk.take ((chunk.length + 1) / 2)).length = (chunk.length + 1) / 2 := by
    rw [List.length_take]; omega
  have hdlen : (chunk.drop ((chunk.length + 1) / 2)).length
      = chunk.length - (chunk.length + 1) / 2 := List.length_drop _ _
  have htake_ne : chunk.take ((chunk.length + 1) / 2) ≠ [] := by
    intro hc; rw [hc] at htlen; simp only [List.length_nil] at htlen; omega
  have hdrop_ne : chunk.drop ((chunk.length + 1) / 2) ≠ [] := by
    intro hc; rw [hc] at hdlen; simp only [List.length_nil] at hdlen; omega
  obtain ⟨hcat, hl1ne⟩ := rebalance_concat (chunk.take ((chunk.length + 1) / 2))
    (chunk.drop ((chunk.length + 1) / 2)) htake_ne
  have hl2ne := rebalance_l2_ne (chunk.take ((chunk.length + 1) / 2))
    (chunk.drop ((chunk.length + 1) / 2)) hdrop_ne
  have hcat2 : (rebalance (chunk.take ((chunk.length + 1) / 2))
        (chunk.drop ((chunk.length + 1) / 2))).1 ++
      (rebalance (chunk.take ((chunk.length + 1) / 2))
        (chunk.drop ((chunk.length + 1) / 2))).2 = chunk := by
    rw [hcat, List.take_append_drop]
  have hmem2 : ∀ w ∈ (rebalance (chunk.take ((chunk.length + 1) / 2))
      (chunk.drop ((chunk.length + 1) / 2))).2, w ∈ chunk := by
    intro w hw
    rw [← hcat2]
    exact List.mem_append_right _ hw
  have hj2ne : joinSp (rebalance (chunk.take ((chunk.length + 1) / 2))
      (chunk.drop ((chunk.length + 1) / 2))).2 ≠ [] :=
    joinSp_ne_nil _ hl2ne (fun w hw => hwne w (hmem2 w hw))
  have hk1 : 0 < (rebalance (chunk.take ((chunk.length + 1) / 2))
      (chunk.drop ((chunk.length + 1) / 2))).1.length := List.length_pos.mpr hl1ne
  have hk2 : 0 < (rebalance (chunk.take ((chunk.length + 1) / 2))
      (chunk.drop ((chunk.length + 1) / 2))).2.length := List.length_pos.mpr hl2ne
  have hklen : (rebalance (chunk.take ((chunk.length + 1) / 2))
        (chunk.drop ((chunk.length + 1) / 2))).1.length +
      (rebalance (chunk.take ((chunk.length + 1) / 2))
        (chunk.drop ((chunk.length + 1) / 2))).2.length = chunk.length := by
    rw [← List.length_append, hcat2]
  have ht : chunk.take (rebalance (chunk.take ((chunk.length + 1) / 2))
        (chunk.drop ((chunk.length + 1) / 2))).1.length
      = (rebalance (chunk.take ((chunk.length + 1) / 2))
        (chunk.drop ((chunk.length + 1) / 2))).1 :=
    take_eq_of_append hcat2
  have hd : chunk.drop (rebalance (chunk.take ((chunk.length + 1) / 2))
        (chunk.drop ((chunk.length + 1) / 2))).1.length
      = (rebalance (chunk.take ((chunk.length + 1) / 2))
        (chunk.drop ((chunk.length + 1) / 2))).2 :=
    drop_eq_of_append hcat2
  refine ⟨(rebalance (chunk.take ((chunk.length + 1) / 2))
      (chunk.drop ((chunk.length + 1) / 2))).1.length, hk1, by omega, ?_, ?_, ?_⟩
  · have hsplit : splitChunkLines chunk =
        (if joinSp (rebalance (chunk.take ((chunk.length + 1) / 2))
              (chunk.drop ((chunk.length + 1) / 2))).2 ≠ [] ∧
            (rebalance (chunk.take ((chunk.length + 1) / 2))
              (chunk.drop ((chunk.length + 1) / 2))).1.length > 0 ∧
            (rebalance (chunk.take ((chunk.length + 1) / 2))
              (chunk.drop ((chunk.length + 1) / 2))).2.length > 0 then
          [joinSp (rebalance (chunk.take ((chunk.length + 1) / 2))
              (chunk.drop ((chunk.length + 1) / 2))).1,
           joinSp (rebalance (chunk.take ((chunk.length + 1) / 2))
              (chunk.drop ((chunk.length + 1) / 2))).2]
        else [joinSp chunk]) := rfl
    rw [hsplit, if_pos ⟨hj2ne, hk1, hk2⟩, ht, hd]
  · have hexit := rebalance_exit (chunk.take ((chunk.length + 1) / 2))
      (chunk.drop ((chunk.length + 1) / 2))
    rcases not_and_or.mp hexit with h | h
    · left
      rw [ht]
      omega
    · right
      omega
  · intro hbudget
    have hnoop := rebalance_noop (chunk.take ((chunk.length + 1) / 2))
      (chunk.drop ((chunk.length + 1) / 2))
      (by
        intro hc
        rw [htlen] at hc
        omega)
    rw [hnoop]
    exact htlen

/-- C4: chunking groups tokens into chunks of at most 4; each chunk is split
into at most two lines at token boundaries only; when line 1 exceeds the
12-character budget trailing tokens are moved to line 2 until line 1 is within
budget or down to one token (and no token moves when it is already within
budget); a one-token chunk is a single line. -/
theorem caption_chunking_spec (text : List Char) :
    ∀ chunk ∈ chunk4 (splitWords (convert_tts_to_subtitle_format text)),
      0 < chunk.length ∧ chunk.length ≤ total_words_per_subtitle ∧
      (chunk.length = 1 → splitChunkLines chunk = [joinSp chunk]) ∧
      (1 < chunk.length → ∃ k, 0 < k ∧ k < chunk.length ∧
        splitChunkLines chunk = [joinSp (chunk.take k), joinSp (chunk.drop k)] ∧
        ((joinSp (chunk.take k)).length ≤ max_chars_per_line ∨ k = 1) ∧
        ((joinSp (chunk.take ((chunk.length + 1) / 2))).length ≤ max_chars_per_line →
          k = (chunk.length + 1) / 2)) := by
  intro chunk hchunk
  have hsz := chunk4_chunk_size (splitWords (convert_tts_to_subtitle_format text)) chunk hchunk
  have hwne : ∀ w ∈ chunk, w ≠ [] := fun w hw =>
    splitWords_ne_nil (convert_tts_to_subtitle_format text) w
      (chunk4_mem_mem (splitWords (convert_tts_to_subtitle_format text)) chunk hchunk w hw)
  exact ⟨List.length_pos.mpr hsz.1,
    by simpa [total_words_per_subtitle] using hsz.2,
    fun h1 => splitChunkLines_single chunk h1,
    fun h1 => splitChunkLines_two chunk h1 hwne⟩

/-- C4 witness: the two-token text `가 나` yields the single chunk
`[가, 나]`, split at token boundary 1 into two lines. -/
theorem caption_chunking_witness :
    0 < ([['가'], ['나']] : List (List Char)).length ∧
    ([['가'], ['나']] : List (List Char)).length ≤ total_words_per_subtitle ∧
    (([['가'], ['나']] : List (List Char)).length = 1 →
      splitChunkLines [['가'], ['나']] = [joinSp [['가'], ['나']]]) ∧
    (1 < ([['가'], ['나']] : List (List Char)).length → ∃ k, 0 < k ∧
      k < ([['가'], ['나']] : List (List Char)).length ∧
      splitChunkLines [['가'], ['나']] =
        [joinSp (([['가'], ['나']] : List (List Char)).take k),
         joinSp (([['가'], ['나']] : List (List Char)).drop k)] ∧
      ((joinSp (([['가'], ['나']] : List (List Char)).take k)).length ≤ max_chars_per_line ∨
        k = 1) ∧
      ((joinSp (([['가'], ['나']] : List (List Char)).take
          ((([['가'], ['나']] : List (List Char)).length + 1) / 2))).length ≤
            max_chars_per_line →
        k = (([['가'], ['나']] : List (List Char)).length + 1) / 2)) :=
  caption_chunking_spec ['가', ' ', '나'] [['가'], ['나']] (by decide)

/-! ## Lemmas: pipeline traces and cleanup -/

theorem concatenate_videos_ok_inv (allExist encOk : Bool) (paths : List FileId)
    (cv : FileId) (evB : List Ev)
    (h : concatenate_videos allExist encOk paths = (Except.ok cv, evB)) :
    (paths.length = 1 ∧ cv ∈ paths ∧ evB = []) ∨
    (2 ≤ paths.length ∧ cv = FileId.concatVideo ∧
      evB = [Ev.create FileId.concatList, Ev.encode, Ev.create FileId.concatVideo,
        Ev.delete FileId.concatList]) := by
  match paths with
  | [] => simp [concatenate_videos] at h
  | [p] =>
    left
    simp only [concatenate_videos, Prod.mk.injEq, Except.ok.injEq] at h
    exact ⟨rfl, by rw [← h.1]; exact List.mem_cons_self _ _, h.2.symm⟩
  | a :: b :: t =>
    right
    have hred : concatenate_videos allExist encOk (a :: b :: t)
        = (if allExist = false then (.error .missingVideoFile, [])
           else if encOk then
             (.ok .concatVideo,
               [.create .concatList, .encode, .create .concatVideo, .delete .concatList])
           else (.error .concatFailed, [.create .concatList, .delete .concatList])) := rfl
    rw [hred] at h
    split at h
    · simp at h
    · split at h
      · simp only [Prod.mk.injEq, Except.ok.injEq] at h
        exact ⟨by simp, h.1.symm, h.2.symm⟩
      · simp at h

theorem concatenate_videos_deletes (allExist encOk : Bool) (paths : List FileId) :
    ∀ f, Ev.delete f ∈ (concatenate_videos allExist encOk paths).2 →
      f = FileId.concatList := by
  intro f hf
  match paths with
  | [] => simp [concatenate_videos] at hf
  | [p] => simp [concatenate_videos] at hf
  | a :: b :: t =>
    have hred : concatenate_videos allExist encOk (a :: b :: t)
        = (if allExist = false then (.error .missingVideoFile, [])
           else if encOk then
             (.ok .concatVideo,
               [.create .concatList, .encode, .create .concatVideo, .delete .concatList])
           else (.error .concatFailed, [.create .concatList, .delete .concatList])) := rfl
    rw [hred] at hf
    split at hf
    · simp at hf
    · split at hf
      · simp at hf
        exact hf
      · simp at hf
        exact hf

theorem finishRun_ok (env : RunEnv) (cv : FileId) (pre : List Ev)
    (h1 : env.finalExists = true) (h2 : env.finalNonEmpty = true) :
    finishRun env cv pre =
      (Except.ok FileId.finalVideo,
        pre ++ Ev.verifyFinal ::
          ((clipFiles env.nSegments).map Ev.delete ++
            [Ev.delete cv, Ev.delete FileId.concatAudio] ++
            (if env.enableSubtitles then [Ev.delete FileId.subtitleFile] else []))) := by
  simp [finishRun, h1, h2]

theorem finishRun_err (env : RunEnv) (cv : FileId) (pre : List Ev) (e : CompErr)
    (h : (finishRun env cv pre).1 = Except.error e) :
    (finishRun env cv pre).2 = pre := by
  unfold finishRun at h ⊢
  split at h
  next hc => rw [if_pos hc]
  next hc =>
    rw [if_neg hc]
    split at h
    next hc2 => rw [if_pos hc2]
    next hc2 =>
      rw [if_neg hc2]
      simp at h

theorem finishRun_err_of_ok (env : RunEnv) (cv : FileId) (pre : List Ev) (out : FileId)
    (h : (finishRun env cv pre).1 = Except.ok out) :
    env.finalExists = true ∧ env.finalNonEmpty = true := by
  unfold finishRun at h
  split at h
  next hc => simp at h
  next hc =>
    split at h
    next hc2 => simp at h
    next hc2 => exact ⟨by simpa using hc, by simpa using hc2⟩

theorem muxStage_ok_inv (env : RunEnv) (u : Unit) (evE : List Ev)
    (h : muxStage env = (Except.ok u, evE)) :
    evE = [Ev.encode, Ev.create FileId.finalVideo] := by
  unfold muxStage at h
  split at h
  · split at h
    · split at h
      · simp only [Prod.mk.injEq] at h
        exact h.2.symm
      · simp at h
    · simp at h
  · split at h
    · simp only [Prod.mk.injEq] at h
      exact h.2.symm
    · simp at h

theorem muxStage_err_inv (env : RunEnv) (e : CompErr) (evE : List Ev)
    (h : muxStage env = (Except.error e, evE)) : evE = [] := by
  unfold muxStage at h
  split at h
  · split at h
    · split at h
      · simp at h
      · simp only [Prod.mk.injEq] at h
        exact h.2.symm
    · simp only [Prod.mk.injEq] at h
      exact h.2.symm
  · split at h
    · simp at h
    · simp only [Prod.mk.injEq] at h
      exact h.2.symm

theorem clipFiles_length (n : Nat) : (clipFiles n).length = n := by
  simp [clipFiles]

theorem clip_mem_clipFiles (i n : Nat) (h : i < n) : FileId.clip i ∈ clipFiles n := by
  simp [clipFiles, List.mem_map, List.mem_range]
  exact h

theorem no_delete_in_creates (n : Nat) (f : FileId) :
    Ev.delete f ∉ (clipFiles n).map Ev.create := by
  simp [clipFiles, List.mem_map]

/-- C6 (amended): intermediate artifacts — per-segment clips, the concatenated
video, the concatenated audio, the subtitle file — are deleted only on the
success path, strictly after the final artifact passes verification; on
failure paths the only deletions ever performed are of the two ffmpeg list
files (`concat_list`, `audio_list`) by their own stages. -/
theorem runSlideshow_cleanup (env : RunEnv) :
    (∀ out, (runSlideshow env).1 = Except.ok out →
      ∃ P S, (runSlideshow env).2 = P ++ Ev.verifyFinal :: S ∧
        (∀ f, Ev.delete f ∈ P → f = FileId.concatList ∨ f = FileId.audioList) ∧
        (∀ i, i < env.nSegments → Ev.delete (FileId.clip i) ∈ S) ∧
        Ev.delete FileId.concatAudio ∈ S ∧
        (2 ≤ env.nSegments → Ev.delete FileId.concatVideo ∈ S) ∧
        (env.enableSubtitles = true → Ev.delete FileId.subtitleFile ∈ S)) ∧
    (∀ e, (runSlideshow env).1 = Except.error e →
      ∀ f, Ev.delete f ∈ (runSlideshow env).2 →
        f = FileId.concatList ∨ f = FileId.audioList) := by
  rcases hrs : runSlideshow env with ⟨res, tr⟩
  constructor
  · intro out hok
    simp only [hrs] at hok ⊢
    unfold runSlideshow at hrs
    split at hrs
    · injection hrs with h1 h2
      rw [← h1] at hok
      simp at hok
    · split at hrs
      · injection hrs with h1 h2
        rw [← h1] at hok
        simp at hok
      · split at hrs
        next e evB heq =>
          injection hrs with h1 h2
          rw [← h1] at hok
          simp at hok
        next cv evB heq =>
          split at hrs
          · injection hrs with h1 h2
            rw [← h1] at hok
            simp at hok
          · split at hrs
            · -- subtitles enabled, mux stage
              split at hrs
              next e evE heq2 =>
                injection hrs with h1 h2
                rw [← h1] at hok
                simp at hok
              next u evE heq2 =>
                -- success through finishRun
                have hfin1 : (finishRun env cv
                    ((clipFiles env.nSegments).map Ev.create ++ evB ++
                      [Ev.create FileId.audioList, Ev.encode, Ev.create FileId.concatAudio,
                        Ev.delete FileId.audioList] ++ [Ev.create FileId.subtitleFile] ++
                      evE)).1 = Except.ok out := by
                  rw [hrs]
                  exact hok
                obtain ⟨hfe, hfne⟩ := finishRun_err_of_ok _ _ _ _ hfin1
                have hfr := finishRun_ok env cv
                  ((clipFiles env.nSegments).map Ev.create ++ evB ++
                    [Ev.create FileId.audioList, Ev.encode, Ev.create FileId.concatAudio,
                      Ev.delete FileId.audioList] ++ [Ev.create FileId.subtitleFile] ++
                    evE) hfe hfne
                rw [hfr] at hrs
                injection hrs with h1 h2
                rw [← h2]
                refine ⟨_, _, rfl, ?_, ?_, ?_, ?_, ?_⟩
                · intro f hf
                  simp only [List.mem_append] at hf
                  rcases hf with ((((hf | hf) | hf) | hf) | hf)
                  · exact absurd hf (no_delete_in_creates _ f)
                  · rcases concatenate_videos_ok_inv _ _ _ _ _ heq with ⟨-, -, rfl⟩ | ⟨-, -, rfl⟩
                    · simp at hf
                    · left
                      simpa using hf
                  · right
                    simpa using hf
                  · simp at hf
                  · rw [muxStage_ok_inv env u evE heq2] at hf
                    simp at hf
                · intro i hi
                  refine List.mem_append_left _ (List.mem_append_left _ ?_)
                  exact List.mem_map_of_mem Ev.delete (clip_mem_clipFiles i env.nSegments hi)
                · exact List.mem_append_left _ (List.mem_append_right _ (by simp))
                · intro hn2
                  rcases concatenate_videos_ok_inv _ _ _ _ _ heq with ⟨hlen1, -, -⟩ |
                    ⟨-, rfl, -⟩
                  · rw [clipFiles_length] at hlen1
                    omega
                  · exact List.mem_append_left _ (List.mem_append_right _ (by simp))
                · intro hsubs
                  refine List.mem_append_right _ ?_
                  rw [if_pos hsubs]
                  simp
            · -- subtitles disabled: combine_video_audio path
              split at hrs
              · have hfin1 : (finishRun env cv
                    ((clipFiles env.nSegments).map Ev.create ++ evB ++
                      [Ev.create FileId.audioList, Ev.encode, Ev.create FileId.concatAudio,
                        Ev.delete FileId.audioList] ++
                      [Ev.encode, Ev.create FileId.finalVideo])).1 = Except.ok out := by
                  rw [hrs]
                  exact hok
                obtain ⟨hfe, hfne⟩ := finishRun_err_of_ok _ _ _ _ hfin1
                have hfr := finishRun_ok env cv
                  ((clipFiles env.nSegments).map Ev.create ++ evB ++
                    [Ev.create FileId.audioList, Ev.encode, Ev.create FileId.concatAudio,
                      Ev.delete FileId.audioList] ++
                    [Ev.encode, Ev.create FileId.finalVideo]) hfe hfne
                rw [hfr] at hrs
                injection hrs with h1 h2
                rw [← h2]
                refine ⟨_, _, rfl, ?_, ?_, ?_, ?_, ?_⟩
                · intro f hf
                  simp only [List.mem_append] at hf
                  rcases hf with (((hf | hf) | hf) | hf)
                  · exact absurd hf (no_delete_in_creates _ f)
                  · rcases concatenate_videos_ok_inv _ _ _ _ _ heq with ⟨-, -, rfl⟩ | ⟨-, -, rfl⟩
                    · simp at hf
                    · left
                      simpa using hf
                  · right
                    simpa using hf
                  · simp at hf
                · intro i hi
                  refine List.mem_append_left _ (List.mem_append_left _ ?_)
                  exact List.mem_map_of_mem Ev.delete (clip_mem_clipFiles i env.nSegments hi)
                · exact List.mem_append_left _ (List.mem_append_right _ (by simp))
                · intro hn2
                  rcases concatenate_videos_ok_inv _ _ _ _ _ heq with ⟨hlen1, -, -⟩ |
                    ⟨-, rfl, -⟩
                  · rw [clipFiles_length] at hlen1
                    omega
                  · exact List.mem_append_left _ (List.mem_append_right _ (by simp))
                · intro hsubs
                  refine List.mem_append_right _ ?_
                  rw [if_pos hsubs]
                  simp
              · injection hrs with h1 h2
                rw [← h1] at hok
                simp at hok
  · intro e herr f hf
    simp only [hrs] at herr hf
    unfold runSlideshow at hrs
    split at hrs
    · injection hrs with h1 h2
      rw [← h2] at hf
      simp at hf
    · split at hrs
      · injection hrs with h1 h2
        rw [← h2] at hf
        simp at hf
      · split at hrs
        next e2 evB heq =>
          injection hrs with h1 h2
          rw [← h2] at hf
          simp only [List.mem_append] at hf
          rcases hf with hf | hf
          · exact absurd hf (no_delete_in_creates _ f)
          · have hB : Ev.delete f ∈ (concatenate_videos true env.concatOk
                (clipFiles env.nSegments)).2 := by
              rw [heq]
              exact hf
            exact Or.inl (concatenate_videos_deletes _ _ _ f hB)
        next cv evB heq =>
          split at hrs
          · injection hrs with h1 h2
            rw [← h2] at hf
            simp only [List.mem_append] at hf
            rcases hf with (hf | hf) | hf
            · exact absurd hf (no_delete_in_creates _ f)
            · have hB : Ev.delete f ∈ (concatenate_videos true env.concatOk
                  (clipFiles env.nSegments)).2 := by
                rw [heq]
                exact hf
              exact Or.inl (concatenate_videos_deletes _ _ _ f hB)
            · simp at hf
          · split at hrs
            · split at hrs
              next e2 evE heq2 =>
                injection hrs with h1 h2
                rw [← h2] at hf
                rw [muxStage_err_inv env e2 evE heq2] at hf
                simp only [List.mem_append] at hf
                rcases hf with ((((hf | hf) | hf) | hf) | hf)
                · exact absurd hf (no_delete_in_creates _ f)
                · have hB : Ev.delete f ∈ (concatenate_videos true env.concatOk
                      (clipFiles env.nSegments)).2 := by
                    rw [heq]
                    exact hf
                  exact Or.inl (concatenate_videos_deletes _ _ _ f hB)
                · right
                  simpa using hf
                · simp at hf
                · simp at hf
              next u evE heq2 =>
                have hfr2 := finishRun_err env cv
                  ((clipFiles env.nSegments).map Ev.create ++ evB ++
                    [Ev.create FileId.audioList, Ev.encode, Ev.create FileId.concatAudio,
                      Ev.delete FileId.audioList] ++ [Ev.create FileId.subtitleFile] ++
                    evE) e (by rw [hrs]; exact herr)
                rw [hrs] at hfr2
                simp only at hfr2
                rw [hfr2] at hf
                simp only [List.mem_append] at hf
                rcases hf with ((((hf | hf) | hf) | hf) | hf)
                · exact absurd hf (no_delete_in_creates _ f)
                · have hB : Ev.delete f ∈ (concatenate_videos true env.concatOk
                      (clipFiles env.nSegments)).2 := by
                    rw [heq]
                    exact hf
                  exact Or.inl (concatenate_videos_deletes _ _ _ f hB)
                · right
                  simpa using hf
                · simp at hf
                · rw [muxStage_ok_inv env u evE heq2] at hf
                  simp at hf
            · split at hrs
              · have hfr2 := finishRun_err env cv
                  ((clipFiles env.nSegments).map Ev.create ++ evB ++
                    [Ev.create FileId.audioList, Ev.encode, Ev.create FileId.concatAudio,
                      Ev.delete FileId.audioList] ++
                    [Ev.encode, Ev.create FileId.finalVideo]) e (by rw [hrs]; exact herr)
                rw [hrs] at hfr2
                simp only at hfr2
                rw [hfr2] at hf
                simp only [List.mem_append] at hf
                rcases hf with (((hf | hf) | hf) | hf)
                · exact absurd hf (no_delete_in_creates _ f)
                · have hB : Ev.delete f ∈ (concatenate_videos true env.concatOk
                      (clipFiles env.nSegments)).2 := by
                    rw [heq]
                    exact hf
                  exact Or.inl (concatenate_videos_deletes _ _ _ f hB)
                · right
                  simpa using hf
                · simp at hf
              · injection hrs with h1 h2
                rw [← h2] at hf
                simp only [List.mem_append] at hf
                rcases hf with (hf | hf) | hf
                · exact absurd hf (no_delete_in_creates _ f)
                · have hB : Ev.delete f ∈ (concatenate_videos true env.concatOk
                      (clipFiles env.nSegments)).2 := by
                    rw [heq]
                    exact hf
                  exact Or.inl (concatenate_videos_deletes _ _ _ f hB)
                · right
                  simpa using hf

/-- C6 (counterexample): when video concatenation fails, the run errors out
with the per-segment clips already created and never deleted — cleanup does
not run on failure paths. -/
theorem cleanup_on_failure_counterexample :
    (runSlideshow concatFailEnv).1 = Except.error CompErr.concatFailed ∧
    Ev.create (FileId.clip 0) ∈ (runSlideshow concatFailEnv).2 ∧
    Ev.delete (FileId.clip 0) ∉ (runSlideshow concatFailEnv).2 := by decide

/-- C6 witness: a fully successful two-segment run deletes every intermediate
artifact after verification. -/
theorem runSlideshow_cleanup_witness :
    ∃ P S, (runSlideshow happyEnv).2 = P ++ Ev.verifyFinal :: S ∧
      (∀ f, Ev.delete f ∈ P → f = FileId.concatList ∨ f = FileId.audioList) ∧
      (∀ i, i < happyEnv.nSegments → Ev.delete (FileId.clip i) ∈ S) ∧
      Ev.delete FileId.concatAudio ∈ S ∧
      (2 ≤ happyEnv.nSegments → Ev.delete FileId.concatVideo ∈ S) ∧
      (happyEnv.enableSubtitles = true → Ev.delete FileId.subtitleFile ∈ S) :=
  (runSlideshow_cleanup happyEnv).1 FileId.finalVideo (by decide)

end VideoComposer
